import Mathlib

/-!
Verification of `qiskit_aqua/translators/ising/setpacking.py`.

Shallow embedding: Python lists become Lean `List`s, floats become `ℚ`
(every coefficient appearing in this module — `A*0.25 = 2.5`, `-0.5` — is
exactly representable in binary floating point, so the arithmetic on them
is exact and `ℚ` is faithful), a Pauli object `Pauli(vp, wp)` becomes the
pair of its two index vectors, dict inputs become association lists, and
fallible indexing becomes `Option`.
-/

namespace SetPacking

/-- Truthiness of `set(L) & set(R)` in Python: the two lists share an
element. -/
def intersects (L R : List Int) : Bool :=
  L.any (fun x => R.contains x)

/-- `Pauli(vp, wp)` together with its coefficient: an entry
`[coeff, Pauli(v, w)]` of `pauli_list`.  `v` is the z-index vector `vp`,
`w` the x-index vector `wp` (always all zeros in this module). -/
structure PauliT where
  coeff : ℚ
  v : List ℚ
  w : List ℚ
  deriving DecidableEq, Repr

/-- `np.zeros(n)` as a rational vector. -/
def zeros (n : Nat) : List ℚ := List.replicate n 0

/-- The constraint weight `A = 10` of `get_setpacking_qubitops`. -/
def A : ℚ := 10

/-- First loop of `get_setpacking_qubitops`: for `i in range(n)`, for
`j in range(i)`, if subsets `i` and `j` intersect, append the three
Pauli terms `Z_i Z_j`, `Z_i`, `Z_j` (vectors built by `np.zeros(n)` plus
`vp[...] = 1`, embedded as `List.set`) each with coefficient `A*0.25`,
and add `A*0.25` to the shift. -/
def constraintFold (los : List (List Int)) : List PauliT × ℚ :=
  (List.range los.length).foldl (fun acc i =>
    (List.range i).foldl (fun acc j =>
      if intersects (los.getD i []) (los.getD j []) then
        (acc.1 ++
          [⟨A * (1/4), ((zeros los.length).set i 1).set j 1,
            zeros los.length⟩,
           ⟨A * (1/4), (zeros los.length).set i 1, zeros los.length⟩,
           ⟨A * (1/4), (zeros los.length).set j 1, zeros los.length⟩],
         acc.2 + A * (1/4))
      else acc) acc) ([], 0)

/-- `get_setpacking_qubitops(list_of_subsets)`: the constraint loop above
followed by the objective loop (for every `i`, append a `Z_i` term with
coefficient `-0.5` and add `-0.5` to the shift).  The returned
`Operator(paulis=pauli_list)` is represented by `pauli_list` itself: the
operator object is opaque and built verbatim from this list. -/
def get_setpacking_qubitops (los : List (List Int)) : List PauliT × ℚ :=
  (List.range los.length).foldl (fun acc i =>
    (acc.1 ++ [⟨-(1/2), (zeros los.length).set i 1, zeros los.length⟩],
     acc.2 + -(1/2))) (constraintFold los)

/-- The three Pauli terms appended for an intersecting pair `(i, j)`:
`Z_i Z_j`, then `Z_i`, then `Z_j`, each with coefficient `A * 0.25`. -/
def pairTerms (n i j : Nat) : List PauliT :=
  [⟨A * (1/4), ((zeros n).set i 1).set j 1, zeros n⟩,
   ⟨A * (1/4), (zeros n).set i 1, zeros n⟩,
   ⟨A * (1/4), (zeros n).set j 1, zeros n⟩]

/-- All constraint-phase terms, laid out pair by pair in loop order:
outer `i` ascending, inner `j` ascending below `i`. -/
def constraintTerms (los : List (List Int)) : List PauliT :=
  (List.range los.length).flatMap (fun i =>
    (List.range i).flatMap (fun j =>
      if intersects (los.getD i []) (los.getD j []) then
        pairTerms los.length i j
      else []))

/-- The single objective-phase term for qubit `i`: `Z_i` with
coefficient `-0.5`. -/
def objTerm (n i : Nat) : PauliT :=
  ⟨-(1/2), (zeros n).set i 1, zeros n⟩

/-- All objective-phase terms, one per qubit. -/
def objTerms (n : Nat) : List PauliT :=
  (List.range n).map (objTerm n)

/-- The number of pairs `(i, j)`, `j < i < n`, whose subsets
intersect. -/
def numIntersectingPairs (los : List (List Int)) : Nat :=
  ((List.range los.length).flatMap (fun i =>
    (List.range i).filter (fun j =>
      intersects (los.getD i []) (los.getD j [])))).length

/-- Generic shape of both loops: each iteration appends a block of terms
and adds to the shift. -/
theorem foldl_append_add {α : Type} (f : Nat → List α) (g : Nat → ℚ) :
    ∀ (L : List Nat) (l : List α) (s : ℚ),
      L.foldl (fun acc i => (acc.1 ++ f i, acc.2 + g i)) (l, s)
        = (l ++ L.flatMap f, s + (L.map g).sum) := by
  intro L
  induction L with
  | nil => intro l s; simp
  | cons a t ih =>
      intro l s
      simp only [List.foldl_cons, ih, List.flatMap_cons, List.map_cons,
        List.sum_cons]
      rw [List.append_assoc]
      ring_nf

theorem sum_map_ite (c : Nat → Bool) (q : ℚ) :
    ∀ L : List Nat,
      (L.map (fun j => if c j then q else 0)).sum
        = q * (L.filter c).length := by
  intro L
  induction L with
  | nil => simp
  | cons a t ih =>
      by_cases h : c a = true
      · simp only [List.map_cons, List.sum_cons, if_pos h, ih,
          List.filter_cons, h, if_true, List.length_cons, Nat.cast_succ]
        ring
      · simp only [List.map_cons, List.sum_cons, if_neg h, ih,
          List.filter_cons, h, if_false, Bool.false_eq_true]
        ring

theorem flatMap_singleton_map {α β : Type} (f : α → β) (l : List α) :
    (l.flatMap fun x => [f x]) = l.map f := by
  induction l with
  | nil => rfl
  | cons a t ih => simp [List.flatMap_cons, ih]

/-- The constraint loop produces exactly the pair-by-pair term blocks
and shift `A*0.25` per intersecting pair. -/
theorem constraintFold_eq (los : List (List Int)) :
    constraintFold los
      = (constraintTerms los,
         A * (1/4) * (numIntersectingPairs los : ℚ)) := by
  unfold constraintFold
  have hinner : ∀ (i : Nat) (acc : List PauliT × ℚ),
      (List.range i).foldl (fun acc j =>
        if intersects (los.getD i []) (los.getD j []) then
          (acc.1 ++
            [⟨A * (1/4), ((zeros los.length).set i 1).set j 1,
              zeros los.length⟩,
             ⟨A * (1/4), (zeros los.length).set i 1, zeros los.length⟩,
             ⟨A * (1/4), (zeros los.length).set j 1, zeros los.length⟩],
           acc.2 + A * (1/4))
        else acc) acc
      = (acc.1 ++ (List.range i).flatMap (fun j =>
            if intersects (los.getD i []) (los.getD j []) then
              pairTerms los.length i j
            else []),
         acc.2 + A * (1/4)
           * (((List.range i).filter (fun j =>
               intersects (los.getD i []) (los.getD j []))).length
               : ℚ)) := by
    intro i acc
    have hfun : (fun (acc : List PauliT × ℚ) j =>
        if intersects (los.getD i []) (los.getD j []) then
          (acc.1 ++
            [⟨A * (1/4), ((zeros los.length).set i 1).set j 1,
              zeros los.length⟩,
             ⟨A * (1/4), (zeros los.length).set i 1, zeros los.length⟩,
             ⟨A * (1/4), (zeros los.length).set j 1, zeros los.length⟩],
           acc.2 + A * (1/4))
        else acc)
      = (fun acc j =>
          (acc.1 ++ (if intersects (los.getD i []) (los.getD j []) then
              pairTerms los.length i j else []),
           acc.2 + (if intersects (los.getD i []) (los.getD j []) then
              A * (1/4) else 0))) := by
      funext acc j
      by_cases h : intersects (los.getD i []) (los.getD j []) = true
      · rw [if_pos h, if_pos h, if_pos h]
        rfl
      · rw [if_neg h, if_neg h, if_neg h]
        simp
    rw [hfun, foldl_append_add, sum_map_ite]
  have hfun2 : (fun (acc : List PauliT × ℚ) i =>
      (List.range i).foldl (fun acc j =>
        if intersects (los.getD i []) (los.getD j []) then
          (acc.1 ++
            [⟨A * (1/4), ((zeros los.length).set i 1).set j 1,
              zeros los.length⟩,
             ⟨A * (1/4), (zeros los.length).set i 1, zeros los.length⟩,
             ⟨A * (1/4), (zeros los.length).set j 1, zeros los.length⟩],
           acc.2 + A * (1/4))
        else acc) acc)
    = (fun acc i =>
        (acc.1 ++ (List.range i).flatMap (fun j =>
            if intersects (los.getD i []) (los.getD j []) then
              pairTerms los.length i j
            else []),
         acc.2 + A * (1/4)
           * (((List.range i).filter (fun j =>
               intersects (los.getD i []) (los.getD j []))).length
               : ℚ))) := by
    funext acc i
    exact hinner i acc
  rw [hfun2, foldl_append_add]
  simp only [List.nil_append, zero_add, constraintTerms,
    numIntersectingPairs, List.length_flatMap]
  rw [Nat.cast_list_sum, List.map_map]
  rw [← List.sum_map_mul_left]
  rfl

/-- The objective loop appends one `-0.5 · Z_i` term per qubit and
subtracts `0.5` from the shift per qubit. -/
theorem qubitops_eq (los : List (List Int)) :
    get_setpacking_qubitops los
      = (constraintTerms los ++ objTerms los.length,
         A * (1/4) * (numIntersectingPairs los : ℚ)
           + -(1/2) * (los.length : ℚ)) := by
  unfold get_setpacking_qubitops
  rw [constraintFold_eq]
  have hfun : (fun (acc : List PauliT × ℚ) i =>
      (acc.1 ++ [⟨-(1/2), (zeros los.length).set i 1, zeros los.length⟩],
       acc.2 + -(1/2)))
    = (fun acc i =>
        (acc.1 ++ (fun k => [objTerm los.length k]) i,
         acc.2 + (fun _ => (-(1/2) : ℚ)) i)) := by
    funext acc i
    simp [objTerm]
  rw [hfun, foldl_append_add, flatMap_singleton_map]
  simp only [objTerms]
  have hsum : ((List.range los.length).map
      (fun _ => (-(1/2) : ℚ))).sum = -(1/2) * (los.length : ℚ) := by
    rw [List.map_const', List.sum_replicate, List.length_range,
      nsmul_eq_mul]
    ring
  rw [hsum]

theorem length_flatMap_ite (c : Nat → Bool) (ts : Nat → List PauliT)
    (h3 : ∀ j, (ts j).length = 3) :
    ∀ L : List Nat,
      (L.flatMap (fun j => if c j then ts j else [])).length
        = 3 * (L.filter c).length := by
  intro L
  induction L with
  | nil => rfl
  | cons a t ih =>
      by_cases h : c a = true
      · simp only [List.flatMap_cons, List.length_append, if_pos h, ih,
          List.filter_cons, h, if_true, List.length_cons, h3]
        ring
      · simp only [List.flatMap_cons, List.length_append, if_neg h, ih,
          List.filter_cons, h, Bool.false_eq_true, if_false,
          List.length_nil]
        ring

/-- The constraint phase holds three terms per intersecting pair. -/
theorem constraintTerms_length (los : List (List Int)) :
    (constraintTerms los).length = 3 * numIntersectingPairs los := by
  unfold constraintTerms numIntersectingPairs
  rw [List.length_flatMap, List.length_flatMap]
  have h : ∀ i, ((List.range i).flatMap (fun j =>
        if intersects (los.getD i []) (los.getD j []) then
          pairTerms los.length i j
        else [])).length
      = 3 * ((List.range i).filter (fun j =>
          intersects (los.getD i []) (los.getD j []))).length := by
    intro i
    exact length_flatMap_ite
      (fun j => intersects (los.getD i []) (los.getD j []))
      (fun j => pairTerms los.length i j) (fun _ => rfl) (List.range i)
  simp only [Function.comp_def]
  rw [List.map_congr_left (fun i _ => h i)]
  exact List.sum_map_mul_left _ _ 3

/-- C1.  For every list of `n` subsets, `get_setpacking_qubitops`
iterates pairs with outer index `i` from `0` to `n-1` and inner index
`j` from `0` to `i-1`; each pair with intersecting subsets contributes
exactly three Pauli terms in order — `Z_i Z_j`, then `Z_i`, then `Z_j` —
each with coefficient `+2.5` (`A*0.25` with `A = 10`), and `+2.5` is
added to the constant shift per such pair; disjoint pairs contribute no
terms and no shift. -/
theorem get_setpacking_qubitops_pair_phase (los : List (List Int)) :
    (get_setpacking_qubitops los).1
      = (List.range los.length).flatMap (fun i =>
          (List.range i).flatMap (fun j =>
            if intersects (los.getD i []) (los.getD j []) then
              [⟨(5/2 : ℚ), ((zeros los.length).set i 1).set j 1,
                zeros los.length⟩,
               ⟨(5/2 : ℚ), (zeros los.length).set i 1, zeros los.length⟩,
               ⟨(5/2 : ℚ), (zeros los.length).set j 1, zeros los.length⟩]
            else []))
        ++ objTerms los.length
    ∧ (get_setpacking_qubitops los).2
      = (5/2 : ℚ) * (numIntersectingPairs los : ℚ)
        - (1/2) * (los.length : ℚ) := by
  have hA : A * (1/4) = (5/2 : ℚ) := by norm_num [A]
  rw [qubitops_eq]
  constructor
  · simp only [constraintTerms, pairTerms, hA]
  · rw [hA]; ring

/-- C2.  After all constraint-pair terms, `get_setpacking_qubitops`
appends, for every qubit `i` from `0` to `n-1`, one single-qubit `Z_i`
term with coefficient `-0.5`, and adds `-0.5` to the constant shift for
each such `i`. -/
theorem get_setpacking_qubitops_obj_phase (los : List (List Int)) :
    (get_setpacking_qubitops los).1
      = constraintTerms los
        ++ (List.range los.length).map (fun i =>
             ⟨-(1/2 : ℚ), (zeros los.length).set i 1, zeros los.length⟩)
    ∧ (get_setpacking_qubitops los).2
      = (constraintFold los).2 + -(1/2 : ℚ) * (los.length : ℚ) := by
  rw [qubitops_eq, constraintFold_eq]
  exact ⟨rfl, rfl⟩

/-- C3.  For every list of `n` subsets with exactly `p` intersecting
pairs, the operator has `3*p + n` terms and shift `2.5*p - 0.5*n`; on
`[]` it is the zero-term operator with shift `0`, and on
`[{1,2},{2,3},{4,5}]` the shift is `1` with exactly one intersecting
pair, three coefficient-`2.5` terms, and three coefficient-`-0.5`
objective terms. -/
theorem get_setpacking_qubitops_count_shift :
    (∀ los : List (List Int),
      (get_setpacking_qubitops los).1.length
          = 3 * numIntersectingPairs los + los.length
        ∧ (get_setpacking_qubitops los).2
          = (5/2 : ℚ) * (numIntersectingPairs los : ℚ)
            - (1/2) * (los.length : ℚ))
    ∧ get_setpacking_qubitops [] = ([], 0)
    ∧ numIntersectingPairs [[1, 2], [2, 3], [4, 5]] = 1
    ∧ (get_setpacking_qubitops [[1, 2], [2, 3], [4, 5]]).2 = 1
    ∧ (get_setpacking_qubitops [[1, 2], [2, 3], [4, 5]]).1.map PauliT.coeff
        = [5/2, 5/2, 5/2, -(1/2), -(1/2), -(1/2)] := by
  refine ⟨fun los => ⟨?_, ?_⟩, rfl, by decide, ?_, ?_⟩
  · rw [qubitops_eq]
    simp only [List.length_append, constraintTerms_length, objTerms,
      List.length_map, List.length_range]
  · rw [qubitops_eq]
    have hA : A * (1/4) = (5/2 : ℚ) := by norm_num [A]
    rw [hA]; ring
  · norm_num [get_setpacking_qubitops, constraintFold, A,
      show List.range 3 = [0, 1, 2] from rfl,
      show List.range 2 = [0, 1] from rfl,
      show List.range 1 = [0] from rfl,
      show List.range 0 = [] from rfl, intersects]
  · norm_num [get_setpacking_qubitops, constraintFold, A,
      show List.range 3 = [0, 1, 2] from rfl,
      show List.range 2 = [0, 1] from rfl,
      show List.range 1 = [0] from rfl,
      show List.range 0 = [] from rfl, intersects]

/-- `get_solution(x)`: returns `1 - x` elementwise. -/
def get_solution (x : List ℚ) : List ℚ :=
  x.map (fun a => 1 - a)

/-- `np.argmax`, modelled from numpy's documented semantics: the index
of the first occurrence of the maximum entry (ties broken by the lowest
index); `0` on an empty vector. -/
def argmax : List ℚ → Nat
  | [] => 0
  | [_] => 0
  | a :: b :: r =>
      let k := argmax (b :: r)
      if (b :: r).getD k 0 > a then k + 1 else 0

/-- The bit-extraction loop of `sample_most_likely`:
`x = np.zeros(n)`; `for i in range(n): x[i] = k % 2; k >>= 1`
(`k >>= 1` is floor division by two on the nonnegative `k` that
`np.argmax` returns). -/
def decodeFold (n k : Nat) : List Nat :=
  ((List.range n).foldl (fun st i => (st.1.set i (st.2 % 2), st.2 / 2))
    (List.replicate n 0, k)).1

/-- Dense branch of `sample_most_likely(n, state_vector)`:
`k = np.argmax(np.abs(state_vector))` followed by the bit-extraction
loop. -/
def sample_most_likely (n : Nat) (v : List ℚ) : List Nat :=
  decodeFold n (argmax (v.map (fun a => |a|)))

theorem argmax_lt_length : ∀ w : List ℚ, w ≠ [] → argmax w < w.length := by
  intro w
  induction w with
  | nil => intro h; exact absurd rfl h
  | cons a t ih =>
      cases t with
      | nil => intro _; simp [argmax]
      | cons b r =>
          intro _
          have hk := ih (by simp)
          simp only [argmax]
          split
          · simpa using Nat.succ_lt_succ hk
          · simp

theorem argmax_is_max : ∀ (w : List ℚ) (j : Nat), j < w.length →
    w.getD j 0 ≤ w.getD (argmax w) 0 := by
  intro w
  induction w with
  | nil => intro j hj; simp at hj
  | cons a t ih =>
      cases t with
      | nil =>
          intro j hj
          have : j = 0 := by simpa using Nat.lt_one_iff.mp (by simpa using hj)
          subst this
          simp [argmax]
      | cons b r =>
          intro j hj
          simp only [argmax]
          split
          · next h =>
              cases j with
              | zero =>
                  simpa using le_of_lt h
              | succ j' =>
                  have := ih j' (by simpa using Nat.lt_of_succ_lt_succ hj)
                  simpa using this
          · next h =>
              cases j with
              | zero => simp
              | succ j' =>
                  have h1 := ih j' (by simpa using Nat.lt_of_succ_lt_succ hj)
                  have h2 : (b :: r).getD (argmax (b :: r)) 0 ≤ a :=
                    le_of_not_lt h
                  simpa using le_trans h1 h2

theorem argmax_first_max : ∀ (w : List ℚ) (j : Nat), j < w.length →
    w.getD j 0 = w.getD (argmax w) 0 → argmax w ≤ j := by
  intro w
  induction w with
  | nil => intro j hj; simp at hj
  | cons a t ih =>
      cases t with
      | nil => intro j _ _; simp [argmax]
      | cons b r =>
          intro j hj
          simp only [argmax]
          split
          · next h =>
              cases j with
              | zero =>
                  intro heq
                  rw [List.getD_cons_zero, List.getD_cons_succ] at heq
                  exact absurd (heq ▸ h) (lt_irrefl a)
              | succ j' =>
                  intro heq
                  rw [List.getD_cons_succ, List.getD_cons_succ] at heq
                  exact Nat.succ_le_succ
                    (ih j' (by simpa using Nat.lt_of_succ_lt_succ hj) heq)
          · next _ =>
              intro _
              exact Nat.zero_le j

/-- Each iteration of the bit loop writes one bit and halves `k`: the
state after processing indices `s, s+1, …, s+m-1` holds bit `j - s` of
`k` at every position `j` in that window. -/
theorem fold_set_bits :
    ∀ (m s : Nat) (lst : List Nat) (k : Nat), s + m ≤ lst.length →
      ((List.range' s m).foldl
          (fun st i => (st.1.set i (st.2 % 2), st.2 / 2)) (lst, k)).1.length
        = lst.length
      ∧ ∀ j, ((List.range' s m).foldl
          (fun st i => (st.1.set i (st.2 % 2), st.2 / 2)) (lst, k)).1.getD j 0
        = if s ≤ j ∧ j < s + m then k / 2 ^ (j - s) % 2
          else lst.getD j 0 := by
  intro m
  induction m with
  | zero =>
      intro s lst k _
      refine ⟨rfl, fun j => ?_⟩
      rw [if_neg (by omega)]
      rfl
  | succ m ih =>
      intro s lst k h
      rw [List.range'_succ]
      simp only [List.foldl_cons]
      obtain ⟨ihl, ihg⟩ := ih (s + 1) (lst.set s (k % 2)) (k / 2)
        (by rw [List.length_set]; omega)
      refine ⟨by rw [ihl, List.length_set], fun j => ?_⟩
      rw [ihg j]
      by_cases h1 : s + 1 ≤ j ∧ j < s + 1 + m
      · rw [if_pos h1, if_pos (by omega)]
        rw [Nat.div_div_eq_div_mul]
        congr 2
        rw [← pow_succ']
        congr 1
        omega
      · rw [if_neg h1]
        by_cases h2 : s ≤ j ∧ j < s + (m + 1)
        · have hj : j = s := by omega
          subst hj
          rw [if_pos h2]
          rw [List.getD_eq_getElem?_getD,
            List.getElem?_set_self (by omega)]
          simp
        · rw [if_neg h2]
          rw [List.getD_eq_getElem?_getD,
            List.getElem?_set_ne (by omega), ← List.getD_eq_getElem?_getD]

/-- The bit loop computes exactly the LSB-first binary expansion. -/
theorem decodeFold_eq (n k : Nat) :
    decodeFold n k = (List.range n).map (fun i => k / 2 ^ i % 2) := by
  have key := fold_set_bits n 0 (List.replicate n 0) k (by simp)
  rw [← List.range_eq_range'] at key
  obtain ⟨hl, hg⟩ := key
  unfold decodeFold
  apply List.ext_getElem
  · rw [hl]; simp
  · intro i h1 h2
    have hi : i < n := by
      rw [hl, List.length_replicate] at h1
      exact h1
    have hgi := hg i
    rw [if_pos (by omega)] at hgi
    rw [List.getD_eq_getElem _ _ h1] at hgi
    rw [hgi]
    simp [Nat.sub_zero, List.getElem_map]

theorem getD_map_abs (v : List ℚ) (j : Nat) :
    (v.map (fun a => |a|)).getD j 0 = |v.getD j 0| := by
  rw [List.getD_eq_getElem?_getD, List.getD_eq_getElem?_getD,
    List.getElem?_map]
  cases v[j]? with
  | none => simp
  | some a => simp

/-- C4.  On a dense state vector, `sample_most_likely` selects the index
`k` of the entry with maximum absolute magnitude, breaking ties by the
lowest index, and returns the length-`n` vector whose entry `i` is bit
`i` of `k`, least-significant first, extracted by repeated mod-2 and
right-shift. -/
theorem sample_most_likely_dense (n : Nat) (v : List ℚ) :
    sample_most_likely n v
      = (List.range n).map (fun i =>
          argmax (v.map (fun a => |a|)) / 2 ^ i % 2)
    ∧ (∀ j, j < v.length →
        |v.getD j 0| ≤ |v.getD (argmax (v.map (fun a => |a|))) 0|)
    ∧ (∀ j, j < v.length →
        |v.getD j 0| = |v.getD (argmax (v.map (fun a => |a|))) 0| →
        argmax (v.map (fun a => |a|)) ≤ j)
    ∧ (v ≠ [] → argmax (v.map (fun a => |a|)) < v.length) := by
  refine ⟨decodeFold_eq n _, fun j hj => ?_, fun j hj heq => ?_, fun h => ?_⟩
  · have := argmax_is_max (v.map (fun a => |a|)) j (by simpa using hj)
    rwa [getD_map_abs, getD_map_abs] at this
  · refine argmax_first_max (v.map (fun a => |a|)) j (by simpa using hj) ?_
    rw [getD_map_abs, getD_map_abs]
    exact heq
  · have := argmax_lt_length (v.map (fun a => |a|)) (by simpa using h)
    simpa using this

/-- Witness for C4 at `n = 2`, `v = [3, -3]`. -/
theorem sample_most_likely_dense_witness :
    sample_most_likely 2 [(3 : ℚ), -3]
      = (List.range 2).map (fun i =>
          argmax ([(3 : ℚ), -3].map (fun a => |a|)) / 2 ^ i % 2)
    ∧ |[(3 : ℚ), -3].getD 0 0|
        ≤ |[(3 : ℚ), -3].getD (argmax ([(3 : ℚ), -3].map (fun a => |a|))) 0|
    ∧ argmax ([(3 : ℚ), -3].map (fun a => |a|)) < 2 :=
  ⟨(sample_most_likely_dense 2 [(3 : ℚ), -3]).1,
   (sample_most_likely_dense 2 [(3 : ℚ), -3]).2.1 0 (by simp),
   (sample_most_likely_dense 2 [(3 : ℚ), -3]).2.2.2 (by simp)⟩

/-- C7.  `get_solution(x)` is the elementwise complement `1 - x`, and it
is an involution: applying it twice gives back `x`. -/
theorem get_solution_involution (x : List ℚ) :
    get_solution x = x.map (fun a => 1 - a)
    ∧ get_solution (get_solution x) = x := by
  refine ⟨rfl, ?_⟩
  unfold get_solution
  rw [List.map_map]
  have h : ((fun a => (1 : ℚ) - a) ∘ fun a => (1 : ℚ) - a) = id := by
    funext a
    simp
  rw [h, List.map_id]

/-- Selection loop of `check_disjoint`: for `i in range(n)` with
`n = len(list_of_subsets)`, read `sol[i]` — an `IndexError` (modelled as
`none`) when `sol` has fewer than `n` entries — and collect subset `i`
whenever the entry equals `1`. -/
def selectSubsets : List Int → List (List Int) → Option (List (List Int))
  | _, [] => some []
  | [], _ :: _ => none
  | b :: bs, s :: ss =>
      (selectSubsets bs ss).map (fun rest => if b = 1 then s :: rest else rest)

/-- Pair loop of `check_disjoint`: for `i in range(tmplen)`, for
`j in range(i)`, return `False` on the first intersecting pair of
selected subsets; `True` when no pair intersects.  The early `return` of
a pure predicate is conjunction over all pairs. -/
def pairwiseOk (l : List (List Int)) : Bool :=
  (List.range l.length).all (fun i =>
    (List.range i).all (fun j =>
      !(intersects (l.getD i []) (l.getD j []))))

/-- `check_disjoint(sol, list_of_subsets)`: select the subsets marked
`1` in `sol`, then test all pairs of selected subsets.  `none` models
the `IndexError` raised when `sol` is shorter than the subset list. -/
def check_disjoint (sol : List Int) (los : List (List Int)) : Option Bool :=
  (selectSubsets sol los).map pairwiseOk

theorem intersects_iff (L R : List Int) :
    intersects L R = true ↔ ∃ x, x ∈ L ∧ x ∈ R := by
  simp [intersects, List.any_eq_true]

/-- Under adequate length, the selection loop returns the subsets at
positions whose `sol` entry is exactly `1`, in position order. -/
theorem selectSubsets_eq_some :
    ∀ (los : List (List Int)) (sol : List Int), los.length ≤ sol.length →
      selectSubsets sol los
        = some ((sol.zip los).filterMap (fun p =>
            if p.1 = 1 then some p.2 else none)) := by
  intro los
  induction los with
  | nil =>
      intro sol _
      cases sol <;> simp [selectSubsets]
  | cons s ss ih =>
      intro sol h
      cases sol with
      | nil => simp at h
      | cons b bs =>
          have hrec := ih bs (by simpa using Nat.le_of_succ_le_succ h)
          by_cases hb : b = 1 <;>
            simp [selectSubsets, hrec, List.zip_cons_cons,
              List.filterMap_cons, hb]

theorem pairwiseOk_iff (l : List (List Int)) :
    pairwiseOk l = true
      ↔ l.Pairwise (fun L R => ¬ ∃ x, x ∈ L ∧ x ∈ R) := by
  unfold pairwiseOk
  rw [List.pairwise_iff_getElem]
  simp only [List.all_eq_true, List.mem_range, Bool.not_eq_true',
    ← Bool.not_eq_true, intersects_iff]
  constructor
  · intro h i j hi hj hij
    have := h j hj i hij
    rw [List.getD_eq_getElem _ _ hj, List.getD_eq_getElem _ _ hi] at this
    intro ⟨x, hx1, hx2⟩
    exact this ⟨x, hx2, hx1⟩
  · intro h i hi j hji
    have hj : j < l.length := lt_trans hji hi
    have := h j i hj hi hji
    rw [List.getD_eq_getElem _ _ hi, List.getD_eq_getElem _ _ hj]
    intro ⟨x, hx1, hx2⟩
    exact this ⟨x, hx2, hx1⟩

/-- C5 (amended).  Provided `sol` has at least as many entries as there
are subsets, `check_disjoint` raises no exception and returns `true` iff
every unordered pair of subsets selected by `sol[i] == 1` is disjoint
(vacuously `true` for zero or one selected subsets). -/
theorem check_disjoint_iff (sol : List Int) (los : List (List Int))
    (h : los.length ≤ sol.length) :
    (check_disjoint sol los).isSome
    ∧ (check_disjoint sol los = some true
        ↔ ((sol.zip los).filterMap (fun p =>
            if p.1 = 1 then some p.2 else none)).Pairwise
              (fun L R => ¬ ∃ x, x ∈ L ∧ x ∈ R)) := by
  unfold check_disjoint
  rw [selectSubsets_eq_some los sol h]
  refine ⟨rfl, ?_⟩
  rw [Option.map_some', Option.some_inj, pairwiseOk_iff]

/-- Witness for C5 (amended) at `sol = [1,0,1]`,
subsets `[{1,2},{2,3},{4,5}]`: no exception, and `true` since the
selected subsets `{1,2}` and `{4,5}` are disjoint. -/
theorem check_disjoint_iff_witness :
    (check_disjoint [1, 0, 1] [[1, 2], [2, 3], [4, 5]]).isSome
    ∧ check_disjoint [1, 0, 1] [[1, 2], [2, 3], [4, 5]] = some true :=
  ⟨(check_disjoint_iff [1, 0, 1] [[1, 2], [2, 3], [4, 5]] (by decide)).1,
   (check_disjoint_iff [1, 0, 1] [[1, 2], [2, 3], [4, 5]]
      (by decide)).2.mpr (by decide)⟩

/-- C5 counterexample: the claim asserts `check_disjoint` "never raises
an exception" and is vacuously `true` with no subset selected, but with
`sol = []` and two subsets the loop evaluates `sol[0]` and raises
`IndexError`: no boolean is returned. -/
theorem check_disjoint_raises :
    check_disjoint [] [[1], [2]] = none := rfl

theorem selectSubsets_congr :
    ∀ (los : List (List Int)) (sol1 sol2 : List Int),
      los.length ≤ sol1.length → los.length ≤ sol2.length →
      (∀ i, i < los.length → (sol1.getD i 0 = 1 ↔ sol2.getD i 0 = 1)) →
      selectSubsets sol1 los = selectSubsets sol2 los := by
  intro los
  induction los with
  | nil => intro sol1 sol2 _ _ _; cases sol1 <;> cases sol2 <;> rfl
  | cons s ss ih =>
      intro sol1 sol2 h1 h2 hag
      cases sol1 with
      | nil => simp at h1
      | cons b1 bs1 =>
          cases sol2 with
          | nil => simp at h2
          | cons b2 bs2 =>
              have hrec := ih bs1 bs2
                (by simpa using Nat.le_of_succ_le_succ h1)
                (by simpa using Nat.le_of_succ_le_succ h2)
                (fun i hi => by
                  have := hag (i + 1) (by simpa using Nat.succ_lt_succ hi)
                  simpa using this)
              have hb : b1 = 1 ↔ b2 = 1 := by
                have := hag 0 (by simp)
                simpa using this
              by_cases hb1 : b1 = 1
              · have hb2 := hb.mp hb1
                simp [selectSubsets, hrec, hb1, hb2]
              · have hb2 : ¬b2 = 1 := fun hh => hb1 (hb.mpr hh)
                simp [selectSubsets, hrec, hb1, hb2]

/-- C10.  `check_disjoint` depends only on the first `n` entries of
`sol` (`n` the number of subsets): entries beyond index `n-1` are
ignored, and any entry different from `1` (e.g. `2` or `-1`) counts as
unselected, so two `sol` vectors agreeing on which of their first `n`
entries equal `1` give identical results. -/
theorem check_disjoint_first_n (sol1 sol2 : List Int)
    (los : List (List Int))
    (h1 : los.length ≤ sol1.length) (h2 : los.length ≤ sol2.length)
    (hag : ∀ i, i < los.length → (sol1.getD i 0 = 1 ↔ sol2.getD i 0 = 1)) :
    check_disjoint sol1 los = check_disjoint sol2 los := by
  unfold check_disjoint
  rw [selectSubsets_congr los sol1 sol2 h1 h2 hag]

/-- Witness for C10: entry `2` counts as unselected and entries past the
subset count are ignored. -/
theorem check_disjoint_first_n_witness :
    check_disjoint [1, 0, 2] [[1, 2], [2, 3], [4, 5]]
      = check_disjoint [1, 0, 0, 5] [[1, 2], [2, 3], [4, 5]] :=
  check_disjoint_first_n [1, 0, 2] [1, 0, 0, 5] [[1, 2], [2, 3], [4, 5]]
    (by decide) (by decide) (by decide)

/-- `read_numbers_from_file(filename)`: the file is abstracted as the
list of per-line parsed floating-point values (`float(line)` is external
parsing; each value is exact here as `ℚ`).  For each line the code runs
`assert(int(round(float(line))) == float(line))` and collects
`int(round(float(line)))`; `none` models the `AssertionError` abort,
which produces no partial result.  Python's `round` is
round-half-to-even while Lean's `round` is round-half-up, but the two
agree whenever `round q = q` holds under either (exactly the
integer-valued `q`), which is the only path on which a value is kept, so
the embedding is faithful. -/
def read_numbers_from_file : List ℚ → Option (List Int)
  | [] => some []
  | q :: rest =>
      if ((round q : ℤ) : ℚ) = q then
        (read_numbers_from_file rest).map (fun ns => round q :: ns)
      else none

theorem read_numbers_ok :
    ∀ lines : List ℚ, (∀ q ∈ lines, ((round q : ℤ) : ℚ) = q) →
      read_numbers_from_file lines = some (lines.map (fun q => round q)) := by
  intro lines
  induction lines with
  | nil => intro _; rfl
  | cons q rest ih =>
      intro h
      have hq := h q (by simp)
      rw [read_numbers_from_file, if_pos hq,
        ih (fun p hp => h p (by simp [hp]))]
      rfl

theorem read_numbers_bad :
    ∀ lines : List ℚ, (∃ q ∈ lines, ((round q : ℤ) : ℚ) ≠ q) →
      read_numbers_from_file lines = none := by
  intro lines
  induction lines with
  | nil => intro ⟨q, hq, _⟩; simp at hq
  | cons q rest ih =>
      intro ⟨p, hp, hbad⟩
      rw [read_numbers_from_file]
      rcases List.mem_cons.mp hp with hpq | hprest
      · rw [if_neg (hpq ▸ hbad)]
      · by_cases hq : ((round q : ℤ) : ℚ) = q
        · rw [if_pos hq, ih ⟨p, hprest, hbad⟩]
          rfl
        · rw [if_neg hq]

/-- C8.  `read_numbers_from_file` parses each line as a float and
returns the values rounded to integers; it aborts with an assertion
failure — no partial result — as soon as some line's value is not
integer-valued. -/
theorem read_numbers_from_file_spec (lines : List ℚ) :
    ((∀ q ∈ lines, ((round q : ℤ) : ℚ) = q) →
      read_numbers_from_file lines = some (lines.map (fun q => round q)))
    ∧ ((∃ q ∈ lines, ((round q : ℤ) : ℚ) ≠ q) →
      read_numbers_from_file lines = none) :=
  ⟨read_numbers_ok lines, read_numbers_bad lines⟩

/-- Witness for C8: `[1, 2]` parses to `some [1, 2]`; a file holding
`1.5` aborts. -/
theorem read_numbers_from_file_spec_witness :
    read_numbers_from_file [(1 : ℚ), 2] = some [1, 2]
    ∧ read_numbers_from_file [(3 / 2 : ℚ)] = none := by
  constructor
  · rw [(read_numbers_from_file_spec [(1 : ℚ), 2]).1 (by
      intro q hq
      rcases List.mem_cons.mp hq with h | h
      · subst h; norm_num [round_eq]
      · rw [List.mem_singleton.mp h]; norm_num [round_eq])]
    norm_num [round_eq]
  · exact (read_numbers_from_file_spec [(3 / 2 : ℚ)]).2
      ⟨3 / 2, by simp, by norm_num [round_eq]⟩

/-- `np.random.randint(low, high, size)`, modelled from its documented
contract: it raises `ValueError` (here `none`) when `low >= high` or
when the bounds do not fit the default int64 dtype (`low < -2^63` or
`high - 1 > 2^63 - 1`); otherwise it returns `size` integers drawn from
`[low, high)`.  The hidden random source is abstracted as a stream
`draws`; each draw is mapped into the range, so any stream yields a
legal output and every legal output is realized by some stream. -/
def np_randint (low high : Int) (size : Nat) (draws : Nat → Int) :
    Option (List Int) :=
  if high ≤ low ∨ low < -(2 ^ 63) ∨ 2 ^ 63 < high then none
  else some ((List.range size).map (fun i => low + draws i % (high - low)))

/-- `random_number_list(n, weight_range)`:
`np.random.randint(low=1, high=weight_range+1, size=n)`.  With a
`savefile` the code writes the decimal representation of one integer
per line (`outfile.write('{}\n'.format(number_list[i]))`); re-reading
the file parses every line with `float(...)`, i.e. to the nearest IEEE
double of the written integer (`floatOfInt` below), before
`read_numbers_from_file` applies its assert-and-round step. -/
def random_number_list (n : Nat) (weight_range : Int)
    (draws : Nat → Int) : Option (List Int) :=
  np_randint 1 (weight_range + 1) n draws

/-- Bit length of a natural number, with explicit fuel (one unit per
halving) so that it evaluates by kernel reduction. -/
def bitLenAux : Nat → Nat → Nat
  | 0, _ => 0
  | fuel + 1, n => if n = 0 then 0 else bitLenAux fuel (n / 2) + 1

/-- Bit length: `bitLen 0 = 0` and `2^(bitLen n - 1) ≤ n < 2^(bitLen n)`
for `n > 0`. -/
def bitLen (n : Nat) : Nat := bitLenAux n n

/-- Round `m` to the nearest multiple of `2^s`, ties to the even
multiple — the IEEE-754 round-to-nearest-even rule at granularity
`2^s`. -/
def roundTiesEvenNat (m s : Nat) : Nat :=
  let q := m / 2 ^ s
  let r := m % 2 ^ s
  if 2 * r < 2 ^ s then q * 2 ^ s
  else if 2 ^ s < 2 * r then (q + 1) * 2 ^ s
  else if q % 2 = 0 then q * 2 ^ s else (q + 1) * 2 ^ s

/-- The IEEE double nearest to the natural number `m` (round to
nearest, ties to even): doubles carry a 53-bit significand, so numbers
of at most 53 bits are exact and wider ones round to a multiple of
`2^(bitLen m - 53)`.  (The `≈ 2^1024` overflow threshold is far above
every value reachable in this module.) -/
def floatOfNatQ (m : Nat) : ℚ :=
  if bitLen m ≤ 53 then (m : ℚ)
  else (roundTiesEvenNat m (bitLen m - 53) : ℚ)

/-- `float(line)` for a line holding the decimal representation of the
integer `z`: the IEEE double nearest to `z`, modelled from the
documented semantics of Python float parsing (correctly rounded,
round-to-nearest-even). -/
def floatOfInt (z : Int) : ℚ :=
  if 0 ≤ z then floatOfNatQ z.toNat else -floatOfNatQ (-z).toNat

theorem bitLenAux_le_iff :
    ∀ (fuel n k : Nat), n ≤ fuel → (bitLenAux fuel n ≤ k ↔ n < 2 ^ k) := by
  intro fuel
  induction fuel with
  | zero =>
      intro n k hn
      have h0 : n = 0 := Nat.le_zero.mp hn
      subst h0
      simp only [bitLenAux]
      exact ⟨fun _ => pow_pos (by norm_num) k, fun _ => Nat.zero_le k⟩
  | succ fuel ih =>
      intro n k hn
      by_cases h0 : n = 0
      · subst h0
        simp only [bitLenAux, if_pos rfl]
        exact ⟨fun _ => pow_pos (by norm_num) k, fun _ => Nat.zero_le k⟩
      · rw [show bitLenAux (fuel + 1) n = bitLenAux fuel (n / 2) + 1 from
          by simp [bitLenAux, h0]]
        have hf : n / 2 ≤ fuel := by omega
        cases k with
        | zero =>
            constructor
            · intro hk; omega
            · intro hk
              have : n = 0 := by simpa using hk
              exact absurd this h0
        | succ k =>
            rw [Nat.succ_le_succ_iff, ih (n / 2) k hf,
              Nat.div_lt_iff_lt_mul (by norm_num), pow_succ]

theorem bitLen_le_iff (n k : Nat) : bitLen n ≤ k ↔ n < 2 ^ k :=
  bitLenAux_le_iff n n k le_rfl

/-- Naturals up to `2^53` are exactly representable as doubles. -/
theorem floatOfNatQ_exact (m : Nat) (h : m ≤ 2 ^ 53) :
    floatOfNatQ m = (m : ℚ) := by
  unfold floatOfNatQ
  by_cases hb : bitLen m ≤ 53
  · rw [if_pos hb]
  · rw [if_neg hb]
    have h1 : ¬m < 2 ^ 53 := fun hlt => hb ((bitLen_le_iff m 53).mpr hlt)
    have hm : m = 2 ^ 53 := by omega
    subst hm
    have hbl : bitLen (2 ^ 53) = 54 := by
      have hu : bitLen (2 ^ 53) ≤ 54 := (bitLen_le_iff _ _).mpr (by norm_num)
      have hl : ¬bitLen (2 ^ 53) ≤ 53 := fun hh =>
        absurd ((bitLen_le_iff _ _).mp hh) (by norm_num)
      omega
    rw [hbl]
    have hr : roundTiesEvenNat (2 ^ 53) (54 - 53) = 2 ^ 53 := by
      norm_num [roundTiesEvenNat]
    rw [hr]

/-- Integers in `[0, 2^53]` parse back from their decimal lines
exactly. -/
theorem floatOfInt_exact (z : Int) (h0 : 0 ≤ z) (h53 : z ≤ 2 ^ 53) :
    floatOfInt z = (z : ℚ) := by
  unfold floatOfInt
  rw [if_pos h0]
  have e53n : (2 : Nat) ^ 53 = 9007199254740992 := by norm_num
  have e53z : (2 : Int) ^ 53 = 9007199254740992 := by norm_num
  have hm : z.toNat ≤ 2 ^ 53 := by omega
  rw [floatOfNatQ_exact z.toNat hm]
  have hz : ((z.toNat : Int)) = z := Int.toNat_of_nonneg h0
  rw [← hz]
  exact (Int.cast_natCast _).symm

/-- C9 counterexample: the unconditional round trip fails above `2^53`.
With `w = 2^54` the program can generate `2^53 + 1` (first conjunct);
the file line `9007199254740993` parses to the nearest double
`9007199254740992.0`, the assert passes on that integer-valued double,
and `read_numbers_from_file` returns `2^53` — a different integer
(second and third conjuncts).  And with `w = 2^63`,
`np.random.randint(1, w+1)` raises `ValueError` (high out of bounds for
int64) instead of returning `n` integers (last conjunct). -/
theorem random_number_list_roundtrip_cex :
    random_number_list 1 (2 ^ 54) (fun _ => 2 ^ 53) = some [2 ^ 53 + 1]
    ∧ read_numbers_from_file ([(2 ^ 53 + 1 : Int)].map floatOfInt)
        = some [2 ^ 53]
    ∧ (2 ^ 53 : Int) ≠ 2 ^ 53 + 1
    ∧ random_number_list 1 (2 ^ 63) (fun _ => 0) = none := by
  refine ⟨?_, ?_, by omega, ?_⟩
  · unfold random_number_list np_randint
    rw [if_neg (by norm_num)]
    rw [show List.range 1 = [0] from rfl]
    simp only [List.map_cons, List.map_nil, Option.some_inj]
    have hmod : (2 ^ 53 : Int) % (2 ^ 54 + 1 - 1) = 2 ^ 53 :=
      Int.emod_eq_of_lt (by norm_num) (by norm_num)
    rw [hmod]
    norm_num [add_comm]
  · have hfl : floatOfInt (2 ^ 53 + 1) = ((2 ^ 53 : Int) : ℚ) := by
      unfold floatOfInt
      rw [if_pos (by norm_num)]
      have e53n : (2 : Nat) ^ 53 = 9007199254740992 := by norm_num
      have e53z : (2 : Int) ^ 53 = 9007199254740992 := by norm_num
      have ht : ((2 ^ 53 + 1 : Int)).toNat = 2 ^ 53 + 1 := by omega
      rw [ht]
      unfold floatOfNatQ
      have hbl : bitLen (2 ^ 53 + 1) = 54 := by
        have hu : bitLen (2 ^ 53 + 1) ≤ 54 :=
          (bitLen_le_iff _ _).mpr (by norm_num)
        have hl : ¬bitLen (2 ^ 53 + 1) ≤ 53 := fun hh =>
          absurd ((bitLen_le_iff _ _).mp hh) (by norm_num)
        omega
      rw [hbl]
      rw [if_neg (by omega)]
      have hr : roundTiesEvenNat (2 ^ 53 + 1) (54 - 53) = 2 ^ 53 := by
        norm_num [roundTiesEvenNat]
      rw [hr]
      push_cast
      norm_num
    rw [show ([(2 ^ 53 + 1 : Int)].map floatOfInt)
        = [((2 ^ 53 : Int) : ℚ)] from by
      rw [List.map_cons, List.map_nil, hfl]]
    rw [read_numbers_ok _ (fun q hq => by
      rw [List.mem_singleton.mp hq, round_intCast])]
    simp [round_intCast]
  · unfold random_number_list np_randint
    rw [if_pos (by norm_num)]

/-- C9 (amended).  For `1 ≤ w ≤ 2^53` — so `w + 1` fits the int64 dtype
of `np.random.randint` and every generated value is exactly
representable as an IEEE double — `random_number_list(n, w)` returns
exactly `n` integers, each in `[1, w]`, the saved file has one line per
integer, and `read_numbers_from_file` on the re-parsed lines returns
exactly the same sequence. -/
theorem random_number_list_spec (n : Nat) (w : Int) (draws : Nat → Int)
    (hw : 1 ≤ w) (hw53 : w ≤ 2 ^ 53) :
    ∃ l : List Int,
      random_number_list n w draws = some l
      ∧ l.length = n
      ∧ (∀ z ∈ l, 1 ≤ z ∧ z ≤ w)
      ∧ read_numbers_from_file (l.map floatOfInt) = some l := by
  have e53 : (2 : Int) ^ 53 = 9007199254740992 := by norm_num
  have e63 : (2 : Int) ^ 63 = 9223372036854775808 := by norm_num
  have hbound : ∀ z ∈ (List.range n).map
      (fun i => 1 + draws i % (w + 1 - 1)), 1 ≤ z ∧ z ≤ w := by
    intro z hz
    simp only [List.mem_map, List.mem_range] at hz
    obtain ⟨i, _, hzi⟩ := hz
    have hmod0 : 0 ≤ draws i % (w + 1 - 1) :=
      Int.emod_nonneg _ (by omega)
    have hmodlt : draws i % (w + 1 - 1) < w + 1 - 1 :=
      Int.emod_lt_of_pos _ (by omega)
    omega
  refine ⟨(List.range n).map (fun i => 1 + draws i % (w + 1 - 1)),
    ?_, by simp, hbound, ?_⟩
  · unfold random_number_list np_randint
    rw [if_neg (by push_neg; refine ⟨by omega, by omega, by omega⟩)]
  · have hmapf : ((List.range n).map
        (fun i => 1 + draws i % (w + 1 - 1))).map floatOfInt
      = ((List.range n).map
          (fun i => 1 + draws i % (w + 1 - 1))).map (fun z : ℤ => (z : ℚ)) :=
      List.map_congr_left (fun z hz =>
        floatOfInt_exact z (by have := hbound z hz; omega)
          (by have := hbound z hz; omega))
    rw [hmapf]
    rw [read_numbers_ok _ (fun q hq => ?_), List.map_map]
    · congr 1
      have hcomp : ((fun q => (round q : ℤ)) ∘ fun z : ℤ => (z : ℚ)) = id := by
        funext z
        simp [round_intCast]
      rw [hcomp, List.map_id]
    · obtain ⟨z, _, hzq⟩ := List.mem_map.mp hq
      rw [← hzq, round_intCast]

/-- Witness for C9 (amended) at `n = 2`, `w = 3`, draw stream
`0, 1, 2, …`. -/
theorem random_number_list_spec_witness :
    ∃ l : List Int,
      random_number_list 2 3 (fun i => (i : Int)) = some l
      ∧ l.length = 2
      ∧ (∀ z ∈ l, 1 ≤ z ∧ z ≤ 3)
      ∧ read_numbers_from_file (l.map floatOfInt) = some l :=
  random_number_list_spec 2 3 (fun i => (i : Int)) (by norm_num)
    (by norm_num)

/-- `np.binary_repr(i, n)`: the `n`-character binary string of `i`,
most-significant bit first (only used for `i < 2^n`). -/
def binary_repr (i n : Nat) : String :=
  String.mk ((List.range n).map (fun j =>
    if i / 2 ^ (n - 1 - j) % 2 = 1 then '1' else '0'))

/-- `state_vector.get(state, 0)` on the counts dict, modelled as an
association list keyed by bit strings: the looked-up count, defaulting
to `0` when the key is absent. -/
def dictGet (d : List (String × ℚ)) (s : String) : ℚ :=
  ((d.find? (fun p => p.1 == s)).map Prod.snd).getD 0

/-- IEEE-754 double values reachable in the normalization step:
ordinary (exactly representable) numbers, signed infinities, and NaN.
Only the unguarded division can leave the ordinary range here. -/
inductive F where
  | num : ℚ → F
  | inf : Bool → F
  | nan : F
  deriving DecidableEq, Repr

/-- Float division `x / t`: for `t = 0` it yields NaN when `x = 0` and
a signed infinity otherwise, as IEEE division does. -/
def fdiv (x t : ℚ) : F :=
  if t = 0 then (if x = 0 then F.nan else F.inf (decide (0 < x)))
  else F.num (x / t)

/-- `np.abs` on the float model. -/
def fabs : F → F
  | F.num q => F.num |q|
  | F.inf _ => F.inf true
  | F.nan => F.nan

/-- Float `>`: every comparison involving NaN is false. -/
def fgt : F → F → Bool
  | F.nan, _ => false
  | _, F.nan => false
  | F.num a, F.num b => decide (b < a)
  | F.num _, F.inf s => !s
  | F.inf s, F.num _ => s
  | F.inf s, F.inf t => s && !t

/-- `np.argmax` over the float model: index of the first entry strictly
greater than everything before it; with NaN comparisons always false,
an all-NaN vector yields index `0`. -/
def argmaxF : List F → Nat
  | [] => 0
  | [_] => 0
  | a :: b :: r =>
      let k := argmaxF (b :: r)
      if fgt ((b :: r).getD k F.nan) a then k + 1 else 0

/-- Sparse (counts-dict) branch of `sample_most_likely(n, state_vector)`:
materialize the dense length-`2^n` vector by `binary_repr` lookups with
default `0`, accumulate the total, divide every entry by the total with
no guard, then run the same argmax and bit-extraction as the dense
branch. -/
def sample_most_likely_dict (n : Nat) (d : List (String × ℚ)) :
    List Nat :=
  let tv := (List.range (2 ^ n)).map (fun i => dictGet d (binary_repr i n))
  let total := tv.sum
  let sv := tv.map (fun x => fdiv x total)
  decodeFold n (argmaxF (sv.map fabs))

theorem fgt_nan_right (x : F) : fgt x F.nan = false := by
  cases x <;> rfl

theorem argmaxF_replicate_nan : ∀ m, argmaxF (List.replicate m F.nan) = 0 := by
  intro m
  match m with
  | 0 => rfl
  | 1 => rfl
  | m + 2 =>
      show argmaxF (F.nan :: F.nan :: List.replicate m F.nan) = 0
      simp only [argmaxF]
      rw [fgt_nan_right]
      rfl

theorem list_sum_nonneg_eq_zero :
    ∀ l : List ℚ, (∀ x ∈ l, 0 ≤ x) → l.sum = 0 → ∀ x ∈ l, x = 0 := by
  intro l
  induction l with
  | nil => intro _ _ x hx; simp at hx
  | cons a t ih =>
      intro hnn hsum x hx
      have ha : 0 ≤ a := hnn a (by simp)
      have ht : 0 ≤ t.sum :=
        List.sum_nonneg (fun y hy => hnn y (by simp [hy]))
      rw [List.sum_cons] at hsum
      have ha0 : a = 0 := by linarith
      have hts : t.sum = 0 := by linarith
      rcases List.mem_cons.mp hx with h | h
      · rw [h, ha0]
      · exact ih (fun y hy => hnn y (by simp [hy])) hts x h

theorem dictGet_nonneg (d : List (String × ℚ))
    (hnn : ∀ p ∈ d, 0 ≤ p.2) (s : String) : 0 ≤ dictGet d s := by
  unfold dictGet
  cases hfind : d.find? (fun p => p.1 == s) with
  | none => simp
  | some p =>
      have hp : p ∈ d := List.mem_of_find?_eq_some hfind
      simpa using hnn p hp

/-- C6.  On a mapping input, `sample_most_likely` materializes the dense
length-`2^n` vector of looked-up counts (default `0` for absent keys)
and divides each entry by the total with no guard: when the total is
`0` (counts being nonnegative), every normalized entry is NaN, and the
NaN distribution propagates into the argmax/decoding steps — the
function still returns a bit vector (here all zeros) rather than
raising a dedicated error. -/
theorem sample_most_likely_dict_nan (n : Nat) (d : List (String × ℚ))
    (hnn : ∀ p ∈ d, 0 ≤ p.2)
    (htot : ((List.range (2 ^ n)).map
        (fun i => dictGet d (binary_repr i n))).sum = 0) :
    ((List.range (2 ^ n)).map (fun i => dictGet d (binary_repr i n))).map
        (fun x => fdiv x (((List.range (2 ^ n)).map
          (fun i => dictGet d (binary_repr i n))).sum))
      = List.replicate (2 ^ n) F.nan
    ∧ sample_most_likely_dict n d = List.replicate n 0 := by
  have hzero : ∀ x ∈ (List.range (2 ^ n)).map
      (fun i => dictGet d (binary_repr i n)), x = 0 := by
    refine list_sum_nonneg_eq_zero _ (fun x hx => ?_) htot
    obtain ⟨i, _, hxi⟩ := List.mem_map.mp hx
    rw [← hxi]
    exact dictGet_nonneg d hnn _
  have hnanv : ((List.range (2 ^ n)).map
      (fun i => dictGet d (binary_repr i n))).map
        (fun x => fdiv x (((List.range (2 ^ n)).map
          (fun i => dictGet d (binary_repr i n))).sum))
      = List.replicate (2 ^ n) F.nan := by
    rw [htot]
    rw [List.eq_replicate_iff]
    refine ⟨by simp, fun b hb => ?_⟩
    obtain ⟨x, hx, hxb⟩ := List.mem_map.mp hb
    rw [← hxb, hzero x hx]
    simp [fdiv]
  refine ⟨hnanv, ?_⟩
  show decodeFold n (argmaxF ((((List.range (2 ^ n)).map
      (fun i => dictGet d (binary_repr i n))).map
        (fun x => fdiv x (((List.range (2 ^ n)).map
          (fun i => dictGet d (binary_repr i n))).sum))).map fabs))
    = List.replicate n 0
  rw [hnanv, List.map_replicate]
  show decodeFold n (argmaxF (List.replicate (2 ^ n) F.nan))
    = List.replicate n 0
  rw [argmaxF_replicate_nan, decodeFold_eq]
  rw [List.eq_replicate_iff]
  refine ⟨by simp, fun b hb => ?_⟩
  obtain ⟨i, _, hib⟩ := List.mem_map.mp hb
  simpa using hib.symm

/-- Witness for C6 at `n = 1` and the empty counts dict: both lookups
default to `0`, the total is `0`, and the function returns `[0]` with
every normalized entry NaN. -/
theorem sample_most_likely_dict_nan_witness :
    ((List.range (2 ^ 1)).map (fun i => dictGet [] (binary_repr i 1))).map
        (fun x => fdiv x (((List.range (2 ^ 1)).map
          (fun i => dictGet [] (binary_repr i 1))).sum))
      = List.replicate (2 ^ 1) F.nan
    ∧ sample_most_likely_dict 1 [] = List.replicate 1 0 :=
  sample_most_likely_dict_nan 1 [] (by simp)
    (by simp [dictGet, show List.range 2 = [0, 1] from rfl])

end SetPacking
